import Mathlib

/-!
Verification of the EFAS skill-assessment core (event detection, persistence-based
event prediction, buffering, hit counting, skill scoring and criteria optimization).

Each Python function of `compute.py` / `optimize.py` is shallowly embedded as an
executable Lean function over lists; the per-station / per-forecast series that the
pandas and xarray code processes column-by-column become `List` values, `NaN` cells
produced by integer/float comparisons with missing values become the fixed boolean
they compare to in the source, and undefined ratios become `Option ℚ`.
-/

namespace EFAS

/-- Booleans to the 0/1 integers that `astype(int)` produces. -/
def b2i (b : Bool) : Int := if b then 1 else 0

/-! ### identify_events (compute.py lines 18-81)

`exceed_up = discharge > upper_bound` is `exceedSeries`; the pandas
`diff() == 1` mask (`NaN` at the first timestep, hence `False` there) is
`risingMask`, and `diff() == -1` is `fallingMask`. -/

/-- One station's `discharge > bound` boolean series. -/
def exceedSeries (q : List ℚ) (bound : ℚ) : List Bool :=
  q.map (fun x => decide (bound < x))

/-- Helper walking the series with the previous value: `cur && !prev`. -/
def risingAux : Bool → List Bool → List Bool
  | _, [] => []
  | prev, cur :: rest => (cur && !prev) :: risingAux cur rest

/-- `(e.astype(int).diff() == 1)`: rising edges, `False` at the first timestep. -/
def risingMask : List Bool → List Bool
  | [] => []
  | x :: xs => false :: risingAux x xs

/-- Helper walking the series with the previous value: `prev && !cur`. -/
def fallingAux : Bool → List Bool → List Bool
  | _, [] => []
  | prev, cur :: rest => (prev && !cur) :: fallingAux cur rest

/-- `(e.astype(int).diff() == -1)`: falling edges, `False` at the first timestep. -/
def fallingMask : List Bool → List Bool
  | [] => []
  | x :: xs => false :: fallingAux x xs

/-- Positions at which a boolean mask holds (the index of a pandas boolean mask). -/
def trueIndices (m : List Bool) : List Nat :=
  (List.range m.length).filter (fun i => m.getD i false)

/-- `any(mask.loc[a:b])` for positional indices: pandas label slices include both ends. -/
def anyInRange (m : List Bool) (a b : Nat) : Bool :=
  ((m.take (b + 1)).drop a).any id

/-- The retention loop over the preliminary onset candidates: a candidate is kept
iff the lower-bound mask fires somewhere in `[last kept, candidate]`. -/
def keepAux (ml : List Bool) : Nat → List Nat → List Nat
  | _, [] => []
  | last, c :: cs =>
      if anyInRange ml last c then c :: keepAux ml c cs else keepAux ml last cs

/-- `events_stn`: the first candidate is always retained, the rest go through `keepAux`. -/
def keepOnsets (ml : List Bool) : List Nat → List Nat
  | [] => []
  | c :: cs => c :: keepAux ml c cs

/-- `identify_events` with only the upper bound: the rising-edge mask itself. -/
def identifyEventsSingle (q : List ℚ) (ub : ℚ) : List Bool :=
  risingMask (exceedSeries q ub)

/-- `identify_events` with both bounds, for one station: hysteresis retention of
upper-bound crossings, all-False when there is no candidate. -/
def identifyEventsTwo (q : List ℚ) (ub lb : ℚ) : List Bool :=
  let maskUp := risingMask (exceedSeries q ub)
  let maskLow := fallingMask (exceedSeries q lb)
  let kept := keepOnsets maskLow (trueIndices maskUp)
  (List.range q.length).map (fun i => kept.contains i)

/-- The last retained onset before timestep `c` (maximum kept index `< c`). -/
def prevRetained (kept : List Nat) (c : Nat) : Nat :=
  (kept.filter (fun k => k < c)).foldl max 0

/-! ### count_events (compute.py lines 362-381) -/

/-- Helper for the first difference `cur - prev == 1`. -/
def risingDiffAux : Int → List Int → List Bool
  | _, [] => []
  | prev, cur :: rest => (cur - prev == 1) :: risingDiffAux cur rest

/-- `concat([da[0]], da.diff()) == 1`: the onset mask, first entry compared to 1 directly. -/
def onsetMask : List Int → List Bool
  | [] => []
  | x :: xs => (x == 1) :: risingDiffAux x xs

/-- `count_events`: total number of onsets along the time axis. -/
def countEvents (da : List Int) : Nat := (onsetMask da).count true

/-! ### exceedance2events (compute.py lines 209-264)

The function first reverses the leadtime axis (longest lead time first), applies
`(da >= probability)`, a trailing rolling sum of window `b` with `min_periods=1`,
compares it with `a`, conjoins with the cell's own exceedance, and reverses back.
The leadtime aggregation modes (`leadtime=None`, a single integer, a list of
breakpoints) follow; leadtime coordinates are integer hours. -/

/-- `(da >= probability).astype(int)` as booleans. -/
def exceedanceOf (da : List ℚ) (p : ℚ) : List Bool :=
  da.map (fun x => decide (p ≤ x))

/-- Trailing rolling sum of window `b` with `min_periods=1`: at position `i` the
window is `[i-b+1, i]` clipped to the series. -/
def rollingSumTrailing (xs : List Int) (b : Nat) : List Int :=
  (List.range xs.length).map (fun i => ((xs.take (i + 1)).drop (i + 1 - b)).sum)

/-- Lines 236-247 of `exceedance2events`: reverse the leadtime axis, apply the
persistence rule `(rolling sum ≥ a) & exceedance`, reverse back. -/
def persistEvents (exc : List Bool) (a b : Nat) : List Bool :=
  let rev := exc.reverse
  let roll := rollingSumTrailing (rev.map b2i) b
  (List.zipWith (fun s e => decide ((a : Int) ≤ s) && e) roll rev).reverse

/-- Forward reading of the persistence rule: the trailing window (in forecast
order, i.e. toward longer lead times) of `b` cells starting at `j`. -/
def windowCount (exc : List Bool) (b j : Nat) : Nat :=
  ((exc.drop j).take b).count true

/-- `events.sel(leadtime=slice(lab, hi))` on integer leadtime coordinates: keep the
event cells whose coordinate lies in the (inclusive) label range. -/
def selRange : List Nat → List Bool → Nat → Option Nat → List Bool
  | [], _, _, _ => []
  | _ :: _, [], _, _ => []
  | c :: cs, e :: es, lab, hi =>
      if lab ≤ c ∧ (∀ h ∈ hi, c ≤ h) then e :: selRange cs es lab hi
      else selRange cs es lab hi

/-- `leadtime=None` branch: the flag at position `j` is the OR of the events whose
coordinate is at least `coords[j]`. -/
def aggAll (coords : List Nat) (events : List Bool) : List Bool :=
  (List.range events.length).map
    (fun j => (selRange coords events (coords.getD j 0) none).any id)

/-- `leadtime=L` (single integer) branch: one bucket, `events.sel(leadtime=slice(L+1, None)).any()`. -/
def aggInt (coords : List Nat) (events : List Bool) (L : Nat) : Bool :=
  (selRange coords events (L + 1) none).any id

/-- `leadtime=[l1,...,lk]` branch: consecutive breakpoint pairs `(lt, LT)` give the
bins `sel(slice(lt+1, LT)).any()`, the last bin reaching to the end. -/
def aggBins (coords : List Nat) (events : List Bool) : List Nat → List Bool
  | [] => []
  | [l] => [(selRange coords events (l + 1) none).any id]
  | l :: l' :: rest =>
      (selRange coords events (l + 1) (some l')).any id :: aggBins coords events (l' :: rest)

/-- `exceedance2events` with `leadtime=None`, from a probability array. -/
def exceedance2eventsAll (coords : List Nat) (da : List ℚ) (p : ℚ) (a b : Nat) : List Bool :=
  aggAll coords (persistEvents (exceedanceOf da p) a b)

/-- `exceedance2events` with a single-integer `leadtime`, from a probability array. -/
def exceedance2eventsInt (coords : List Nat) (da : List ℚ) (p : ℚ) (a b : Nat) (L : Nat) : Bool :=
  aggInt coords (persistEvents (exceedanceOf da p) a b) L

/-- `exceedance2events` with a breakpoint-list `leadtime`, from a probability array. -/
def exceedance2eventsBins (coords : List Nat) (da : List ℚ) (p : ℚ) (a b : Nat)
    (bps : List Nat) : List Bool :=
  aggBins coords (persistEvents (exceedanceOf da p) a b) bps

/-! ### buffer_events (compute.py lines 327-358)

A centered rolling window of width `w` at position `i` spans `[i - w/2, i + (w-1)/2]`
(the pandas/xarray centered-label convention: an even window carries its extra
element on the left), a trailing one spans `[i-w+1, i]`. `min_periods` is
`int(w/2) + 1` when centered and `1` otherwise; a window with fewer in-range
entries yields `NaN`, and `NaN > 0` is `False`, hence 0 after `astype(int)`. -/

/-- The in-range slice of the rolling window of `buffer_events` at position `i`. -/
def bufferWindow (da : List Int) (center : Bool) (w : Nat) (i : Nat) : List Int :=
  let lo := if center then i - w / 2 else i + 1 - w
  let hi := if center then i + (w - 1) / 2 else i
  (da.take (hi + 1)).drop lo

/-- The `min_periods` used by `buffer_events`. -/
def bufferMinPeriods (center : Bool) (w : Nat) : Nat :=
  if center then w / 2 + 1 else 1

/-- `buffer_events`: 1 where the rolling sum is defined (enough periods) and positive. -/
def bufferEvents (da : List Int) (center : Bool) (w : Nat) : List Int :=
  (List.range da.length).map (fun i =>
    let win := bufferWindow da center w i
    if bufferMinPeriods center w ≤ win.length ∧ 0 < win.sum then 1 else 0)

/-- Modelled from the spec: the variant of `buffer_events` whose centered
`min_periods` is `⌈w/2⌉ + 1` as §4.4 of the spec words it, rather than the
source's `int(w/2) + 1`; used only to compare the spec's rule with the code's. -/
def bufferEventsCeilMP (da : List Int) (center : Bool) (w : Nat) : List Int :=
  (List.range da.length).map (fun i =>
    let win := bufferWindow da center w i
    let mp := if center then (w + 1) / 2 + 1 else 1
    if mp ≤ win.length ∧ 0 < win.sum then 1 else 0)

/-! ### events2hits (compute.py lines 385-445) -/

/-- `buff.where(obs == 1)` followed by `== 1`: the true-positive 0/1 series. -/
def maskedTP (obs : List Bool) (buff : List Int) : List Int :=
  List.zipWith (fun o bf => if o && (bf == 1) then (1 : Int) else 0) obs buff

/-- `events2hits`: buffer the prediction, mask by the observations, count onsets,
cap TP at the observed event count, derive FN and FP. -/
def events2hits (obs pred : List Bool) (center : Bool) (w : Nat) : Int × Int × Int :=
  let buff := bufferEvents (pred.map b2i) center w
  let nObs : Int := countEvents (obs.map b2i)
  let nPred : Int := countEvents buff
  let TP : Int := min (countEvents (maskedTP obs buff) : Int) nObs
  (TP, nObs - TP, max 0 (nPred - TP))

/-! ### hits2skill (compute.py lines 449-480)

Ratios of integer counts; the 0/0 cells that numpy turns into `NaN` become `none`. -/

/-- A ratio that is undefined (`NaN`) when the denominator vanishes. -/
def ratioOpt (num den : ℚ) : Option ℚ :=
  if den = 0 then none else some (num / den)

/-- `hits2skill` for one cell: `(recall, precision, f_beta)`. -/
def hits2skill (TP FN FP : Int) (beta : ℚ) : Option ℚ × Option ℚ × Option ℚ :=
  (ratioOpt TP (TP + FN),
   ratioOpt TP (TP + FP),
   ratioOpt ((1 + beta ^ 2) * TP) ((1 + beta ^ 2) * TP + beta ^ 2 * FN + FP))

/-! ### find_best_criterion (optimize.py lines 11-62)

One point per coordinate value along the optimized dimension. -/

/-- One coordinate value of the optimized dimension with its skill variables. -/
structure SkillPoint where
  coord : ℚ
  metric : ℚ
  «recall» : ℚ
  «precision» : ℚ
deriving DecidableEq

/-- `skill[metric].max(dim)` over the (nonempty) list of points. -/
def maxMetric : List SkillPoint → ℚ
  | [] => 0
  | p :: ps => (ps.map SkillPoint.metric).foldl max p.metric

/-- `skill.where(delta_metric < tolerance, drop=True)`: the tolerance-band candidates. -/
def candidatesOf (skill : List SkillPoint) (tol : ℚ) : List SkillPoint :=
  skill.filter (fun p => maxMetric skill - p.metric < tol)

/-- `abs(candidates.recall - candidates.precision)`. -/
def gapRP (p : SkillPoint) : ℚ := |p.recall - p.precision|

/-- `diff_RP.idxmin(dim)`: the first point attaining the minimal recall-precision gap. -/
def argminGap : List SkillPoint → Option SkillPoint
  | [] => none
  | p :: ps =>
      some ((argminGap ps).elim p (fun q => if gapRP q < gapRP p then q else p))

/-- `find_best_criterion`, with its failure path explicit: the selected coordinate
`best_dim` is the gap `idxmin` when `min_spread`, else the first candidate along
the axis; when the tolerance band empties the candidate dimension, `idxmin` /
`idxmax` over the size-0 axis raise a `ValueError` — after the array computation,
modelled as `.error ()`. -/
def findBestCriterionExc (skill : List SkillPoint) (tol : ℚ) (minSpread : Bool) :
    Except Unit ℚ :=
  let cands := candidatesOf skill tol
  if minSpread then
    match argminGap cands with
    | none => .error ()
    | some p => .ok p.coord
  else
    match cands.head? with
    | none => .error ()
    | some p => .ok p.coord

/-- The selected coordinate of `find_best_criterion` as an `Option`: `some` on the
success path of `findBestCriterionExc`, `none` when the source would raise. -/
def findBestCriterion (skill : List SkillPoint) (tol : ℚ) (minSpread : Bool) : Option ℚ :=
  (findBestCriterionExc skill tol minSpread).toOption

/-! ### Basic lemmas about the embedded operations -/

lemma risingAux_length (x : Bool) (xs : List Bool) : (risingAux x xs).length = xs.length := by
  induction xs generalizing x with
  | nil => rfl
  | cons y ys ih => simp [risingAux, ih]

lemma risingMask_length (e : List Bool) : (risingMask e).length = e.length := by
  cases e with
  | nil => rfl
  | cons x xs => simp [risingMask, risingAux_length]

lemma fallingAux_length (x : Bool) (xs : List Bool) : (fallingAux x xs).length = xs.length := by
  induction xs generalizing x with
  | nil => rfl
  | cons y ys ih => simp [fallingAux, ih]

lemma fallingMask_length (e : List Bool) : (fallingMask e).length = e.length := by
  cases e with
  | nil => rfl
  | cons x xs => simp [fallingMask, fallingAux_length]

lemma exceedSeries_length (q : List ℚ) (bound : ℚ) :
    (exceedSeries q bound).length = q.length := by
  simp [exceedSeries]

lemma risingMask_getD_zero (e : List Bool) : (risingMask e).getD 0 false = false := by
  cases e <;> simp [risingMask]

lemma mem_trueIndices {m : List Bool} {i : Nat} :
    i ∈ trueIndices m ↔ i < m.length ∧ m.getD i false = true := by
  simp [trueIndices, List.mem_filter, List.mem_range, and_comm]

lemma mem_of_mem_keepAux {ml : List Bool} {x last : Nat} :
    ∀ {cs : List Nat}, x ∈ keepAux ml last cs → x ∈ cs := by
  intro cs
  induction cs generalizing last with
  | nil => simp [keepAux]
  | cons c cs ih =>
      intro hx
      rw [keepAux] at hx
      by_cases h : anyInRange ml last c = true
      · rw [if_pos h] at hx
        rcases List.mem_cons.mp hx with h1 | h1
        · exact h1 ▸ List.mem_cons_self _ _
        · exact List.mem_cons_of_mem _ (ih h1)
      · rw [if_neg h] at hx
        exact List.mem_cons_of_mem _ (ih hx)

lemma mem_of_mem_keepOnsets {ml : List Bool} {x : Nat} :
    ∀ {cands : List Nat}, x ∈ keepOnsets ml cands → x ∈ cands := by
  intro cands hx
  cases cands with
  | nil => simp [keepOnsets] at hx
  | cons c cs =>
      rw [keepOnsets] at hx
      rcases List.mem_cons.mp hx with h1 | h1
      · exact h1 ▸ List.mem_cons_self _ _
      · exact List.mem_cons_of_mem _ (mem_of_mem_keepAux h1)

lemma identifyEventsTwo_getD (q : List ℚ) (ub lb : ℚ) (i : Nat) :
    (identifyEventsTwo q ub lb).getD i false
      = if i < q.length then
          (keepOnsets (fallingMask (exceedSeries q lb))
            (trueIndices (risingMask (exceedSeries q ub)))).contains i
        else false := by
  by_cases hi : i < q.length
  · rw [identifyEventsTwo, if_pos hi]
    rw [List.getD_eq_getElem?_getD, List.getElem?_map, List.getElem?_range hi]
    rfl
  · rw [identifyEventsTwo, if_neg hi]
    rw [List.getD_eq_getElem?_getD, List.getElem?_map, List.getElem?_eq_none (by simpa using hi)]
    rfl

lemma contains_eq_decide_mem (l : List Nat) (a : Nat) : l.contains a = decide (a ∈ l) := by
  simp [List.contains, List.elem_eq_mem]

/-! ### Claim theorems: first-timestep behaviour (C10) -/

/-- Claim C10: `identify_events` never marks the first timestep of the series as an
event onset (in both single- and two-threshold modes the onset candidates come from
a first difference that is undefined, hence `False`, at the first timestep), while
`count_events` does count a series whose first timestep is 1 as containing an onset
there. -/
theorem identify_first_never_count_first_does :
    (∀ (q : List ℚ) (ub : ℚ), (identifyEventsSingle q ub).getD 0 false = false) ∧
    (∀ (q : List ℚ) (ub lb : ℚ), (identifyEventsTwo q ub lb).getD 0 false = false) ∧
    (∀ (da : List Int), da.getD 0 0 = 1 →
      (onsetMask da).getD 0 false = true ∧ 1 ≤ countEvents da) := by
  refine ⟨fun q ub => ?_, fun q ub lb => ?_, fun da h => ?_⟩
  · rw [identifyEventsSingle, risingMask_getD_zero]
  · rw [identifyEventsTwo_getD]
    by_cases h0 : 0 < q.length
    · rw [if_pos h0, contains_eq_decide_mem]
      simp only [decide_eq_false_iff_not]
      intro hmem
      have h1 := mem_of_mem_keepOnsets hmem
      have h2 := (mem_trueIndices.mp h1).2
      rw [risingMask_getD_zero] at h2
      exact Bool.false_ne_true h2
    · rw [if_neg h0]
  · cases da with
    | nil => simp at h
    | cons x xs =>
        have hx : x = 1 := by simpa using h
        subst hx
        refine ⟨by simp [onsetMask], ?_⟩
        rw [countEvents, onsetMask]
        simp [List.count_cons]

/-- Witness for C10 at a concrete series starting at 1. -/
theorem identify_first_never_count_first_does_witness :
    (onsetMask [1, 0, 1]).getD 0 false = true ∧ 1 ≤ countEvents [1, 0, 1] :=
  identify_first_never_count_first_does.2.2 [1, 0, 1] (by decide)

/-! ### Claim theorems: hit counting (C3) -/

/-- Claim C3: `events2hits` returns TP equal to the onset count of the buffered
prediction masked by the observed positives, capped at the observed event count;
FN is the observed count minus TP; FP is `max 0 (n_pred - TP)` with `n_pred`
counted on the buffered prediction; hence `0 ≤ TP ≤ n_obs`, `FN ≥ 0` and `FP ≥ 0`
for every observed/predicted pair and every buffering configuration. -/
theorem events2hits_spec :
    ∀ (obs pred : List Bool) (center : Bool) (w : Nat),
      (events2hits obs pred center w).1 =
        min (countEvents (maskedTP obs (bufferEvents (pred.map b2i) center w)) : Int)
            (countEvents (obs.map b2i) : Int) ∧
      (events2hits obs pred center w).2.1 =
        (countEvents (obs.map b2i) : Int) - (events2hits obs pred center w).1 ∧
      (events2hits obs pred center w).2.2 =
        max 0 ((countEvents (bufferEvents (pred.map b2i) center w) : Int)
                - (events2hits obs pred center w).1) ∧
      0 ≤ (events2hits obs pred center w).1 ∧
      (events2hits obs pred center w).1 ≤ (countEvents (obs.map b2i) : Int) ∧
      0 ≤ (events2hits obs pred center w).2.1 ∧
      0 ≤ (events2hits obs pred center w).2.2 := by
  intro obs pred center w
  refine ⟨rfl, rfl, rfl, ?_, ?_, ?_, ?_⟩
  · exact le_min (Int.ofNat_nonneg _) (Int.ofNat_nonneg _)
  · exact min_le_right _ _
  · simp only [events2hits, sub_nonneg]
    exact min_le_right _ _
  · exact le_max_left _ _

/-! ### Claim theorems: skill ratios (C5) -/

lemma ratioOpt_spec (num den : ℚ) (h0 : 0 ≤ num) (h1 : num ≤ den) :
    (ratioOpt num den = none ↔ den = 0) ∧
      0 ≤ (ratioOpt num den).getD 0 ∧ (ratioOpt num den).getD 0 ≤ 1 := by
  rw [ratioOpt]
  by_cases h : den = 0
  · simp [h]
  · have hden : 0 < den := lt_of_le_of_ne (le_trans h0 h1) (Ne.symm h)
    rw [if_neg h]
    refine ⟨by simp [h], ?_, ?_⟩
    · simpa using div_nonneg h0 hden.le
    · simpa using (div_le_one hden).mpr h1

/-- Claim C5: for nonnegative integer hits, `hits2skill` yields recall, precision
and f-beta each within `[0,1]` when defined, and an undefined (`NaN`-like) value
exactly when the corresponding denominator vanishes — never an exception, never a
silent 0. -/
theorem hits2skill_spec (TP FN FP : Int) (beta : ℚ)
    (hTP : 0 ≤ TP) (hFN : 0 ≤ FN) (hFP : 0 ≤ FP) :
    ((hits2skill TP FN FP beta).1 = none ↔ ((TP : ℚ) + (FN : ℚ)) = 0) ∧
    0 ≤ (hits2skill TP FN FP beta).1.getD 0 ∧ (hits2skill TP FN FP beta).1.getD 0 ≤ 1 ∧
    ((hits2skill TP FN FP beta).2.1 = none ↔ ((TP : ℚ) + (FP : ℚ)) = 0) ∧
    0 ≤ (hits2skill TP FN FP beta).2.1.getD 0 ∧ (hits2skill TP FN FP beta).2.1.getD 0 ≤ 1 ∧
    ((hits2skill TP FN FP beta).2.2 = none ↔
      (1 + beta ^ 2) * (TP : ℚ) + beta ^ 2 * (FN : ℚ) + (FP : ℚ) = 0) ∧
    0 ≤ (hits2skill TP FN FP beta).2.2.getD 0 ∧ (hits2skill TP FN FP beta).2.2.getD 0 ≤ 1 := by
  have hTP' : (0 : ℚ) ≤ (TP : ℚ) := by exact_mod_cast hTP
  have hFN' : (0 : ℚ) ≤ (FN : ℚ) := by exact_mod_cast hFN
  have hFP' : (0 : ℚ) ≤ (FP : ℚ) := by exact_mod_cast hFP
  have hb : (0 : ℚ) ≤ beta ^ 2 := sq_nonneg beta
  have hb1 : (0 : ℚ) ≤ 1 + beta ^ 2 := by linarith
  have h1 := ratioOpt_spec (TP : ℚ) ((TP : ℚ) + (FN : ℚ)) hTP' (by linarith)
  have h2 := ratioOpt_spec (TP : ℚ) ((TP : ℚ) + (FP : ℚ)) hTP' (by linarith)
  have h3 := ratioOpt_spec ((1 + beta ^ 2) * (TP : ℚ))
      ((1 + beta ^ 2) * (TP : ℚ) + beta ^ 2 * (FN : ℚ) + (FP : ℚ))
      (mul_nonneg hb1 hTP') (by nlinarith)
  exact ⟨h1.1, h1.2.1, h1.2.2, h2.1, h2.2.1, h2.2.2, h3.1, h3.2.1, h3.2.2⟩

/-- Witness for C5 at TP=1, FN=2, FP=3, beta=1. -/
theorem hits2skill_spec_witness :
    0 ≤ (hits2skill 1 2 3 1).1.getD 0 ∧ (hits2skill 1 2 3 1).1.getD 0 ≤ 1 ∧
      ((hits2skill 1 2 3 1).1 ≠ none) := by
  have h := hits2skill_spec 1 2 3 1 (by norm_num) (by norm_num) (by norm_num)
  refine ⟨h.2.1, h.2.2.1, ?_⟩
  rw [ne_eq, h.1]
  norm_num

/-! ### Claim theorems: event buffering (C7) -/

lemma sum_nonneg_01 {l : List Int} (h01 : ∀ x ∈ l, x = 0 ∨ x = 1) : 0 ≤ l.sum := by
  induction l with
  | nil => simp
  | cons x xs ih =>
      have hx := h01 x (List.mem_cons_self _ _)
      have hxs := ih (fun y hy => h01 y (List.mem_cons_of_mem _ hy))
      rcases hx with h | h <;> subst h <;> simp <;> omega

lemma sum_pos_iff_one_mem {l : List Int} (h01 : ∀ x ∈ l, x = 0 ∨ x = 1) :
    0 < l.sum ↔ (1 : Int) ∈ l := by
  induction l with
  | nil => simp
  | cons x xs ih =>
      have hx := h01 x (List.mem_cons_self _ _)
      have h01' : ∀ y ∈ xs, y = 0 ∨ y = 1 := fun y hy => h01 y (List.mem_cons_of_mem _ hy)
      have hxs := ih h01'
      have hnn := sum_nonneg_01 h01'
      rcases hx with h | h <;> subst h
      · simp [List.mem_cons, hxs]
      · simp [List.mem_cons, hxs]
        omega

lemma window_mem_iff (da : List Int) (lo hi : Nat) :
    (1 : Int) ∈ (da.take (hi + 1)).drop lo ↔
      ∃ j, lo ≤ j ∧ j ≤ hi ∧ da.getD j 0 = 1 := by
  constructor
  · intro hmem
    obtain ⟨k, hk, hget⟩ := List.mem_iff_getElem.mp hmem
    have hk' : k < (da.take (hi + 1)).length - lo := by simpa using hk
    have hlen : (da.take (hi + 1)).length = min (hi + 1) da.length := by simp
    have hlo : lo + k < (da.take (hi + 1)).length := by omega
    have hda : lo + k < da.length := by
      rw [hlen] at hlo; omega
    refine ⟨lo + k, Nat.le_add_right _ _, ?_, ?_⟩
    · rw [hlen] at hlo; omega
    · rw [List.getElem_drop] at hget
      rw [List.getElem_take] at hget
      rw [List.getD_eq_getElem?_getD, List.getElem?_eq_getElem hda, Option.getD_some]
      exact hget
  · rintro ⟨j, hjlo, hjhi, hj⟩
    have hjn : j < da.length := by
      by_contra hc
      rw [List.getD_eq_getElem?_getD, List.getElem?_eq_none (by omega)] at hj
      simp at hj
    have hj' : da[j] = 1 := by
      rw [List.getD_eq_getElem?_getD, List.getElem?_eq_getElem hjn, Option.getD_some] at hj
      exact hj
    have hlen : (da.take (hi + 1)).length = min (hi + 1) da.length := by simp
    have hk : j - lo < ((da.take (hi + 1)).drop lo).length := by
      simp only [List.length_drop, hlen]; omega
    refine List.mem_iff_getElem.mpr ⟨j - lo, hk, ?_⟩
    rw [List.getElem_drop, List.getElem_take]
    have : lo + (j - lo) = j := by omega
    simp_rw [this]
    exact hj'

lemma bufferEvents_getD (da : List Int) (center : Bool) (w : Nat) (i : Nat)
    (hi : i < da.length) :
    (bufferEvents da center w).getD i 0 =
      if bufferMinPeriods center w ≤ (bufferWindow da center w i).length ∧
          0 < (bufferWindow da center w i).sum then 1 else 0 := by
  rw [bufferEvents, List.getD_eq_getElem?_getD, List.getElem?_map, List.getElem?_range hi]
  rfl

/-- Counterexample for C7: with the odd window `w = 5` and `center=True`, the code's
`min_periods = int(w/2)+1 = 3` lets the first timestep keep its buffered event,
while the spec's `ceil(w/2)+1 = 4` rule would zero it. -/
theorem buffer_minperiods_counterexample :
    bufferEvents [1, 0, 0, 0, 0] true 5 = [1, 1, 1, 0, 0] ∧
      bufferEventsCeilMP [1, 0, 0, 0, 0] true 5 = [0, 1, 1, 0, 0] := by decide

/-- Claim C7 (amended): `buffer_events` applies a rolling sum of `w` consecutive
timesteps (centered or trailing), with minimum periods `⌊w/2⌋ + 1` when centered
(the source's `int(w/2)+1`, not `⌈w/2⌉+1`) and 1 when trailing, and returns 1
exactly where the window is long enough and contains an event. -/
theorem bufferEvents_spec (da : List Int) (center : Bool) (w : Nat)
    (h01 : ∀ x ∈ da, x = 0 ∨ x = 1) (i : Nat) (hi : i < da.length) :
    ((bufferEvents da center w).getD i 0 = 1 ↔
      (bufferMinPeriods center w ≤ (bufferWindow da center w i).length ∧
        ∃ j, (if center then i - w / 2 else i + 1 - w) ≤ j ∧
             j ≤ (if center then i + (w - 1) / 2 else i) ∧ da.getD j 0 = 1)) ∧
    ((bufferEvents da center w).getD i 0 = 0 ∨ (bufferEvents da center w).getD i 0 = 1) := by
  have h01w : ∀ x ∈ bufferWindow da center w i, x = 0 ∨ x = 1 := by
    intro x hx
    rw [bufferWindow] at hx
    exact h01 x (List.mem_of_mem_take (List.mem_of_mem_drop hx))
  have hpos := sum_pos_iff_one_mem h01w
  have hwin : (1 : Int) ∈ bufferWindow da center w i ↔
      ∃ j, (if center then i - w / 2 else i + 1 - w) ≤ j ∧
           j ≤ (if center then i + (w - 1) / 2 else i) ∧ da.getD j 0 = 1 := by
    rw [bufferWindow]
    cases center
    · simp only [Bool.false_eq_true, if_false]
      exact window_mem_iff da _ _
    · simp only [if_true]
      exact window_mem_iff da _ _
  rw [bufferEvents_getD da center w i hi]
  by_cases hc : bufferMinPeriods center w ≤ (bufferWindow da center w i).length ∧
      0 < (bufferWindow da center w i).sum
  · rw [if_pos hc]
    refine ⟨⟨fun _ => ⟨hc.1, hwin.mp (hpos.mp hc.2)⟩, fun _ => rfl⟩, Or.inr rfl⟩
  · rw [if_neg hc]
    refine ⟨⟨fun h => absurd h (by norm_num), fun h => ?_⟩, Or.inl rfl⟩
    exact absurd ⟨h.1, hpos.mpr (hwin.mpr h.2)⟩ hc

/-- Witness for C7 at a centered window of width 3 over `[0,1,0]`. -/
theorem bufferEvents_spec_witness : (bufferEvents [0, 1, 0] true 3).getD 1 0 = 1 :=
  (bufferEvents_spec [0, 1, 0] true 3 (by decide) 1 (by decide)).1.mpr
    ⟨by decide, 1, by decide, by decide, by decide⟩

/-! ### Claim theorems: criteria optimization (C4) -/

lemma foldl_max_le_acc (l : List ℚ) (acc : ℚ) : acc ≤ l.foldl max acc := by
  induction l generalizing acc with
  | nil => exact le_refl _
  | cons y ys ih => exact le_trans (le_max_left acc y) (ih (max acc y))

lemma le_foldl_max (l : List ℚ) (acc : ℚ) : ∀ x ∈ l, x ≤ l.foldl max acc := by
  induction l generalizing acc with
  | nil => intro x hx; simp at hx
  | cons y ys ih =>
      intro x hx
      rcases List.mem_cons.mp hx with h | h
      · subst h
        exact le_trans (le_max_right acc x) (foldl_max_le_acc ys (max acc x))
      · exact ih (max acc y) x h

lemma metric_le_maxMetric {skill : List SkillPoint} {p : SkillPoint} (hp : p ∈ skill) :
    p.metric ≤ maxMetric skill := by
  cases skill with
  | nil => simp at hp
  | cons q qs =>
      rw [maxMetric]
      rcases List.mem_cons.mp hp with h | h
      · subst h; exact foldl_max_le_acc _ _
      · exact le_foldl_max _ _ _ (List.mem_map_of_mem SkillPoint.metric h)

lemma argminGap_spec : ∀ {l : List SkillPoint} {p : SkillPoint}, argminGap l = some p →
    p ∈ l ∧ ∀ q ∈ l, gapRP p ≤ gapRP q := by
  intro l
  induction l with
  | nil => intro p h; simp [argminGap] at h
  | cons x xs ih =>
      intro p h
      rw [argminGap] at h
      have hp := Option.some.inj h
      cases hmg : argminGap xs with
      | none =>
          cases xs with
          | nil =>
              rw [hmg] at hp
              simp only [Option.elim] at hp
              subst hp
              refine ⟨List.mem_cons_self _ _, fun q hq => ?_⟩
              rcases List.mem_cons.mp hq with h1 | h1
              · subst h1; exact le_refl _
              · simp at h1
          | cons y ys => simp [argminGap] at hmg
      | some r =>
          obtain ⟨hrmem, hrmin⟩ := ih hmg
          rw [hmg] at hp
          simp only [Option.elim] at hp
          by_cases hlt : gapRP r < gapRP x
          · rw [if_pos hlt] at hp
            subst hp
            refine ⟨List.mem_cons_of_mem _ hrmem, fun q hq => ?_⟩
            rcases List.mem_cons.mp hq with h1 | h1
            · subst h1; exact hlt.le
            · exact hrmin q h1
          · rw [if_neg hlt] at hp
            subst hp
            refine ⟨List.mem_cons_self _ _, fun q hq => ?_⟩
            rcases List.mem_cons.mp hq with h1 | h1
            · subst h1; exact le_refl _
            · exact le_trans (not_lt.mp hlt) (hrmin q h1)

/-- Claim C4: `find_best_criterion` takes as candidates every coordinate whose
metric is within the tolerance of the maximum along the dimension; with
`min_spread=True` it selects the (first) candidate minimizing `|recall-precision|`,
with `min_spread=False` the first (smallest, when the axis is sorted) candidate. -/
theorem findBestCriterion_spec (skill : List SkillPoint) (tol : ℚ) :
    (∀ p, p ∈ candidatesOf skill tol ↔ p ∈ skill ∧ maxMetric skill - p.metric < tol) ∧
    (∀ p, argminGap (candidatesOf skill tol) = some p →
      findBestCriterion skill tol true = some p.coord ∧
      p ∈ candidatesOf skill tol ∧
      ∀ q ∈ candidatesOf skill tol, gapRP p ≤ gapRP q) ∧
    (∀ p, (candidatesOf skill tol).head? = some p →
      findBestCriterion skill tol false = some p.coord ∧
      p ∈ candidatesOf skill tol ∧
      (List.Pairwise (fun u v => u.coord < v.coord) skill →
        ∀ q ∈ candidatesOf skill tol, p.coord ≤ q.coord)) := by
  refine ⟨fun p => ?_, fun p hp => ?_, fun p hp => ?_⟩
  · simp [candidatesOf, List.mem_filter]
  · obtain ⟨hmem, hmin⟩ := argminGap_spec hp
    exact ⟨by rw [findBestCriterion, findBestCriterionExc, if_pos rfl, hp]; rfl, hmem, hmin⟩
  · have hmem : p ∈ candidatesOf skill tol := by
      cases hc : candidatesOf skill tol with
      | nil => rw [hc] at hp; simp at hp
      | cons a t =>
          rw [hc] at hp
          have ha : a = p := by simpa using hp
          subst ha
          exact List.mem_cons_self _ _
    refine ⟨by rw [findBestCriterion, findBestCriterionExc, if_neg (by simp), hp]; rfl,
      hmem, fun hsort q hq => ?_⟩
    have hsort' : List.Pairwise (fun u v => u.coord < v.coord) (candidatesOf skill tol) :=
      List.Pairwise.sublist (List.filter_sublist skill) hsort
    cases hc : candidatesOf skill tol with
    | nil => rw [hc] at hp; simp at hp
    | cons a t =>
        rw [hc] at hp
        have ha : a = p := by simpa using hp
        subst ha
        rw [hc] at hsort' hq
        rcases List.mem_cons.mp hq with h1 | h1
        · subst h1; exact le_refl _
        · exact ((List.pairwise_cons.mp hsort').1 q h1).le

/-- Witness for C4: the spec's tolerance-band scenario — global maximum 0.80 at
coord 0.3, near-tie 0.795 at coord 0.5, tolerance 0.01 — selects coord 0.5, the
candidate with the smaller recall-precision gap, not the argmax. -/
theorem findBestCriterion_spec_witness :
    findBestCriterion
      [⟨1/10, 1/2, 1/2, 1/2⟩, ⟨3/10, 8/10, 9/10, 1/2⟩, ⟨5/10, 795/1000, 7/10, 13/20⟩]
      (1/100) true = some (1/2) := by
  have h := (findBestCriterion_spec
      [⟨1/10, 1/2, 1/2, 1/2⟩, ⟨3/10, 8/10, 9/10, 1/2⟩, ⟨5/10, 795/1000, 7/10, 13/20⟩]
      (1/100)).2.1 ⟨5/10, 795/1000, 7/10, 13/20⟩
      (by norm_num [candidatesOf, maxMetric, argminGap, gapRP, List.filter, List.foldl,
            abs_of_nonneg])
  rw [h.1]
  norm_num

/-! ### Claim theorems: persistence rule (C2) -/

lemma sum_map_b2i (l : List Bool) : (l.map b2i).sum = (l.count true : Int) := by
  induction l with
  | nil => simp
  | cons x xs ih =>
      cases x
      · simp [b2i, List.count_cons, ih]
      · simp [b2i, List.count_cons, ih]
        ring

lemma persistEvents_length (exc : List Bool) (a b : Nat) :
    (persistEvents exc a b).length = exc.length := by
  simp [persistEvents, rollingSumTrailing]

lemma window_sum_eq (exc : List Bool) (b j : Nat) (hj : j < exc.length) :
    ((((exc.map b2i).reverse).take (exc.length - j)).drop (exc.length - j - b)).sum
      = (windowCount exc b j : Int) := by
  rw [List.take_reverse]
  rw [List.drop_reverse]
  rw [List.sum_reverse]
  simp only [List.length_map, List.length_drop]
  have h1 : exc.length - (exc.length - j) = j := by omega
  rw [h1]
  rcases le_or_lt b (exc.length - j) with hb | hb
  · have h2 : exc.length - j - (exc.length - j - b) = b := by omega
    rw [h2, windowCount, ← List.map_drop, ← List.map_take, sum_map_b2i]
  · have h2 : exc.length - j - (exc.length - j - b) = exc.length - j := by omega
    rw [h2]
    have h3 : ((exc.map b2i).drop j).take (exc.length - j)
        = ((exc.map b2i).drop j).take b := by
      rw [List.take_of_length_le (by simp), List.take_of_length_le (by simp; omega)]
    rw [h3, windowCount, ← List.map_drop, ← List.map_take, sum_map_b2i]

lemma persistEvents_getD (exc : List Bool) (a b : Nat) (j : Nat) (hj : j < exc.length) :
    (persistEvents exc a b).getD j false
      = (decide (a ≤ windowCount exc b j) && exc.getD j false) := by
  have hR : (exc.reverse.map b2i).length = exc.length := by simp
  have hroll : (rollingSumTrailing (exc.reverse.map b2i) b).length = exc.length := by
    simp [rollingSumTrailing]
  have hzip : (List.zipWith (fun s e => decide ((a : Int) ≤ s) && e)
      (rollingSumTrailing (exc.reverse.map b2i) b) exc.reverse).length = exc.length := by
    rw [List.length_zipWith, hroll]
    simp
  set i := exc.length - 1 - j with hidef
  have hi : i < exc.length := by omega
  rw [persistEvents, List.getD_eq_getElem?_getD,
      List.getElem?_reverse (by rw [hzip]; exact hj), hzip,
      List.getElem?_eq_getElem (by rw [hzip]; exact hi), Option.getD_some,
      List.getElem_zipWith]
  have hirev : i < exc.reverse.length := by simpa using hi
  have hiroll : i < (rollingSumTrailing (exc.reverse.map b2i) b).length := by
    rw [hroll]
    exact hi
  have hrev : exc.reverse[i] = exc.getD j false := by
    rw [List.getElem_reverse, List.getD_eq_getElem exc false hj]
    congr 1
    omega
  rw [hrev]
  have hrollv : (rollingSumTrailing (exc.reverse.map b2i) b)[i]
      = (windowCount exc b j : Int) := by
    simp only [rollingSumTrailing]
    rw [List.getElem_map, List.getElem_range, List.map_reverse]
    have h1 : i + 1 = exc.length - j := by omega
    rw [h1]
    exact window_sum_eq exc b j hj
  rw [hrollv]
  congr 1
  simp [Int.ofNat_le]

/-- Claim C2: `exceedance2events` (persistence step, lines 236-247) marks a cell as
a positive prediction iff the rolling count over the trailing window of `b`
consecutive leadtime steps — walked from the longest lead time toward the shortest,
i.e. the window `[j, j+b-1]` in input order — is at least `a` AND the cell's own
exceedance is positive; the leadtime order of the result is the input order. -/
theorem exceedance2events_persistence (exc : List Bool) (a b : Nat)
    (_ha : 1 ≤ a) (_hab : a ≤ b) :
    (persistEvents exc a b).length = exc.length ∧
    ∀ j, j < exc.length →
      ((persistEvents exc a b).getD j false = true ↔
        (a ≤ windowCount exc b j ∧ exc.getD j false = true)) := by
  refine ⟨persistEvents_length exc a b, fun j hj => ?_⟩
  rw [persistEvents_getD exc a b j hj]
  simp

/-- Witness for C2 on a four-cell exceedance series with persistence (2, 2). -/
theorem exceedance2events_persistence_witness :
    (persistEvents [true, false, true, true] 2 2).getD 2 false = true ↔
      (2 ≤ windowCount [true, false, true, true] 2 2 ∧
        [true, false, true, true].getD 2 false = true) :=
  (exceedance2events_persistence [true, false, true, true] 2 2
      (by decide) (by decide)).2 2 (by decide)

/-! ### Claim theorems: aggregation modes and monotonicity (C6, C8, C9) -/

lemma selRange_any_iff :
    ∀ (coords : List Nat) (events : List Bool) (lab : Nat) (hi : Option Nat),
      ((selRange coords events lab hi).any id = true ↔
        ∃ j, j < coords.length ∧ j < events.length ∧ lab ≤ coords.getD j 0 ∧
          (∀ h ∈ hi, coords.getD j 0 ≤ h) ∧ events.getD j false = true) := by
  intro coords
  induction coords with
  | nil => intro events lab hi; simp [selRange]
  | cons c cs ih =>
      intro events lab hi
      cases events with
      | nil => simp [selRange]
      | cons e es =>
          rw [selRange]
          by_cases hc : lab ≤ c ∧ (∀ h ∈ hi, c ≤ h)
          · rw [if_pos hc, List.any_cons]
            constructor
            · intro h
              rcases Bool.or_eq_true_iff.mp h with he | hrest
              · exact ⟨0, by simp, by simp, by simpa using hc.1,
                  by simpa using hc.2, by simpa using he⟩
              · obtain ⟨j, h1, h2, h3, h4, h5⟩ := (ih es lab hi).mp hrest
                exact ⟨j + 1, by simpa using h1, by simpa using h2,
                  by simpa using h3, by simpa using h4, by simpa using h5⟩
            · rintro ⟨j, h1, h2, h3, h4, h5⟩
              cases j with
              | zero =>
                  apply Bool.or_eq_true_iff.mpr
                  left
                  simpa using h5
              | succ j' =>
                  apply Bool.or_eq_true_iff.mpr
                  right
                  exact (ih es lab hi).mpr ⟨j', by simpa using h1, by simpa using h2,
                    by simpa using h3, by simpa using h4, by simpa using h5⟩
          · rw [if_neg hc, ih es lab hi]
            constructor
            · rintro ⟨j, h1, h2, h3, h4, h5⟩
              exact ⟨j + 1, by simpa using h1, by simpa using h2,
                by simpa using h3, by simpa using h4, by simpa using h5⟩
            · rintro ⟨j, h1, h2, h3, h4, h5⟩
              cases j with
              | zero =>
                  exact absurd ⟨by simpa using h3, by simpa using h4⟩ hc
              | succ j' =>
                  exact ⟨j', by simpa using h1, by simpa using h2,
                    by simpa using h3, by simpa using h4, by simpa using h5⟩

lemma selRange_any_mono :
    ∀ (coords : List Nat) (e1 e2 : List Bool) (lab : Nat) (hi : Option Nat),
      e1.length = e2.length →
      (∀ j, e1.getD j false = true → e2.getD j false = true) →
      (selRange coords e1 lab hi).any id = true →
      (selRange coords e2 lab hi).any id = true := by
  intro coords e1 e2 lab hi hlen hm h
  obtain ⟨j, h1, h2, h3, h4, h5⟩ := (selRange_any_iff coords e1 lab hi).mp h
  exact (selRange_any_iff coords e2 lab hi).mpr
    ⟨j, h1, by omega, h3, h4, hm j h5⟩

lemma persistEvents_mono (exc : List Bool) (a b : Nat) :
    ∀ j, (persistEvents exc (a + 1) b).getD j false = true →
      (persistEvents exc a b).getD j false = true := by
  intro j h
  by_cases hj : j < exc.length
  · rw [persistEvents_getD _ _ _ _ hj] at h ⊢
    simp only [Bool.and_eq_true, decide_eq_true_eq] at h ⊢
    exact ⟨by omega, h.2⟩
  · rw [List.getD_eq_getElem?_getD,
      List.getElem?_eq_none (by rw [persistEvents_length]; omega)] at h
    simp at h

lemma persistEvents_all_false (exc : List Bool) (a b : Nat) (hba : b < a) :
    ∀ j, (persistEvents exc a b).getD j false = false := by
  intro j
  by_cases hj : j < exc.length
  · rw [persistEvents_getD _ _ _ _ hj]
    have hcnt : windowCount exc b j ≤ b := by
      rw [windowCount]
      refine le_trans (List.count_le_length _ _) ?_
      rw [List.length_take]
      exact min_le_left _ _
    have : ¬ a ≤ windowCount exc b j := by omega
    simp [this]
  · rw [List.getD_eq_getElem?_getD,
      List.getElem?_eq_none (by rw [persistEvents_length]; omega)]
    rfl

lemma aggAll_mono (coords : List Nat) (e1 e2 : List Bool) (hlen : e1.length = e2.length)
    (hm : ∀ j, e1.getD j false = true → e2.getD j false = true) :
    ∀ j, (aggAll coords e1).getD j false = true → (aggAll coords e2).getD j false = true := by
  intro j h
  rw [aggAll] at h ⊢
  by_cases hj : j < e1.length
  · rw [List.getD_eq_getElem?_getD, List.getElem?_map, List.getElem?_range hj] at h
    rw [List.getD_eq_getElem?_getD, List.getElem?_map, List.getElem?_range (by omega)]
    simp only [Option.map_some', Option.getD_some] at h ⊢
    exact selRange_any_mono coords e1 e2 _ none hlen hm h
  · rw [List.getD_eq_getElem?_getD, List.getElem?_map,
      List.getElem?_eq_none (by simpa using hj)] at h
    simp at h

lemma aggBins_mono (coords : List Nat) (e1 e2 : List Bool) (hlen : e1.length = e2.length)
    (hm : ∀ j, e1.getD j false = true → e2.getD j false = true) :
    ∀ (bps : List Nat) (j : Nat),
      (aggBins coords e1 bps).getD j false = true →
      (aggBins coords e2 bps).getD j false = true := by
  intro bps
  induction bps with
  | nil => intro j h; simp [aggBins] at h
  | cons l rest ih =>
      intro j h
      cases rest with
      | nil =>
          cases j with
          | zero =>
              rw [aggBins] at h ⊢
              simp only [List.getD_cons_zero] at h ⊢
              exact selRange_any_mono coords e1 e2 _ none hlen hm h
          | succ j' =>
              rw [aggBins] at h
              simp at h
      | cons l' rest' =>
          cases j with
          | zero =>
              rw [aggBins] at h ⊢
              simp only [List.getD_cons_zero] at h ⊢
              exact selRange_any_mono coords e1 e2 _ (some l') hlen hm h
          | succ j' =>
              rw [aggBins] at h ⊢
              simp only [List.getD_cons_succ] at h ⊢
              exact ih j' h

/-- Claim C6: with the window `b` fixed, strengthening the persistence requirement
from `a` to `a+1` never adds predicted positives — the positives of the stricter
criterion are a subset of those of the looser one — in every leadtime-aggregation
mode of `exceedance2events` (per-leadtime, single-bucket, breakpoint bins). -/
theorem persistence_monotone (coords : List Nat) (da : List ℚ) (p : ℚ) (a b : Nat)
    (_hab : a + 1 ≤ b) :
    (∀ j, (exceedance2eventsAll coords da p (a + 1) b).getD j false = true →
          (exceedance2eventsAll coords da p a b).getD j false = true) ∧
    (∀ L, exceedance2eventsInt coords da p (a + 1) b L = true →
          exceedance2eventsInt coords da p a b L = true) ∧
    (∀ bps j, (exceedance2eventsBins coords da p (a + 1) b bps).getD j false = true →
          (exceedance2eventsBins coords da p a b bps).getD j false = true) := by
  have hlen : (persistEvents (exceedanceOf da p) (a + 1) b).length
      = (persistEvents (exceedanceOf da p) a b).length := by
    rw [persistEvents_length, persistEvents_length]
  have hm := persistEvents_mono (exceedanceOf da p) a b
  refine ⟨?_, ?_, ?_⟩
  · exact aggAll_mono coords _ _ hlen hm
  · intro L h
    rw [exceedance2eventsInt, aggInt] at h ⊢
    exact selRange_any_mono coords _ _ _ none hlen hm h
  · intro bps j
    exact aggBins_mono coords _ _ hlen hm bps j

/-- Witness for C6: a series where the strict criterion (2 of 2) fires at the
shortest leadtime bucket, and so does the loose criterion (1 of 2). -/
theorem persistence_monotone_witness : exceedance2eventsInt [6, 12] [1, 1] 1 1 2 0 = true :=
  (persistence_monotone [6, 12] [1, 1] 1 1 2 (by decide)).2.1 0 (by decide)

lemma aggInt_iff (coords : List Nat) (events : List Bool) (L : Nat) :
    aggInt coords events L = true ↔
      ∃ j, j < coords.length ∧ j < events.length ∧ L + 1 ≤ coords.getD j 0 ∧
        events.getD j false = true := by
  rw [aggInt, selRange_any_iff]
  simp

/-- Counterexample for C8: with leadtime coordinates `[6, 12]` and a positive
prediction exactly at leadtime 6, calling `exceedance2events` with the single
integer `leadtime=6` yields 0 even though a positive exists at a leadtime `≥ 6`
(the code slices `leadtime=slice(L+1, None)`, excluding leadtime `L` itself). -/
theorem exceedance2eventsInt_counterexample :
    exceedance2eventsInt [6, 12] [1, 0] 1 1 1 6 = false ∧
      (selRange [6, 12] (persistEvents (exceedanceOf [1, 0] 1) 1 1) 6 none).any id = true := by
  decide

/-- Claim C8 (amended): with a single-integer `leadtime=L`, the collapsed bucket's
flag is 1 iff some positive prediction exists at a leadtime strictly greater than
`L` (coordinate `≥ L+1`), not from `L` inclusive. -/
theorem exceedance2eventsInt_spec (coords : List Nat) (da : List ℚ) (p : ℚ)
    (a b L : Nat) (hlen : coords.length = da.length) :
    exceedance2eventsInt coords da p a b L = true ↔
      ∃ j, j < coords.length ∧ L < coords.getD j 0 ∧
        (persistEvents (exceedanceOf da p) a b).getD j false = true := by
  rw [exceedance2eventsInt, aggInt_iff]
  have hplen : (persistEvents (exceedanceOf da p) a b).length = coords.length := by
    rw [persistEvents_length]
    simp [exceedanceOf, hlen]
  constructor
  · rintro ⟨j, h1, _h2, h3, h4⟩
    exact ⟨j, h1, by omega, h4⟩
  · rintro ⟨j, h1, h2, h3⟩
    exact ⟨j, h1, by omega, by omega, h3⟩

/-- Witness for C8 at coordinates `[6, 12]` with the positive cell at leadtime 12. -/
theorem exceedance2eventsInt_spec_witness :
    exceedance2eventsInt [6, 12] [0, 1] 1 1 1 6 = true :=
  (exceedance2eventsInt_spec [6, 12] [0, 1] 1 1 1 6 (by decide)).mpr
    ⟨1, by decide, by decide, by decide⟩

/-- Counterexample for C9: an invalid persistence pair `a > b` and an out-of-range
probability are not rejected — the functions compute normal values — and a negative
tolerance is not rejected at the call boundary: the candidate-set array computation
is performed (and empties), and the failure only surfaces afterwards as the
`ValueError` of `idxmin` over the emptied dimension. -/
theorem no_eager_validation_counterexample :
    persistEvents [true, true] 2 1 = [false, false] ∧
      exceedanceOf [1, 0] 2 = [false, false] ∧
      candidatesOf [⟨3, 4, 1, 1⟩] (-1) = [] ∧
      findBestCriterionExc [⟨3, 4, 1, 1⟩] (-1) true = .error () := by
  refine ⟨by decide, by decide, ?_, ?_⟩ <;>
    norm_num [candidatesOf, maxMetric, findBestCriterionExc, argminGap, List.filter,
      List.foldl]

/-- Claim C9 (amended): invalid configurations are not rejected eagerly at the call
boundary; computation proceeds: a persistence pair with `a > b` yields an all-false
prediction array (single-bucket aggregation included), and with a non-positive
tolerance `find_best_criterion` first performs the array computation (producing an
empty candidate set) and then fails with a late `ValueError` from `idxmin`/`idxmax`
over the emptied dimension — not with a precondition error at the boundary. -/
theorem no_eager_validation :
    (∀ (exc : List Bool) (a b : Nat), b < a →
        ∀ j, (persistEvents exc a b).getD j false = false) ∧
    (∀ (coords : List Nat) (da : List ℚ) (p : ℚ) (a b L : Nat), b < a →
        exceedance2eventsInt coords da p a b L = false) ∧
    (∀ (skill : List SkillPoint) (tol : ℚ) (ms : Bool), tol ≤ 0 →
        candidatesOf skill tol = [] ∧ findBestCriterionExc skill tol ms = .error ()) := by
  refine ⟨fun exc a b hba => persistEvents_all_false exc a b hba, ?_, ?_⟩
  · intro coords da p a b L hba
    rw [Bool.eq_false_iff]
    intro h
    obtain ⟨j, _h1, _h2, _h3, h4⟩ :=
      (aggInt_iff coords (persistEvents (exceedanceOf da p) a b) L).mp h
    rw [persistEvents_all_false (exceedanceOf da p) a b hba j] at h4
    exact Bool.false_ne_true h4
  · intro skill tol ms htol
    have hc : candidatesOf skill tol = [] := by
      rw [candidatesOf, List.filter_eq_nil_iff]
      intro q hq
      have := metric_le_maxMetric hq
      simp only [decide_eq_true_eq, not_lt]
      linarith
    refine ⟨hc, ?_⟩
    cases ms <;> simp [findBestCriterionExc, hc, argminGap]

/-- Witness for C9 on a three-cell series with the invalid pair (3, 1). -/
theorem no_eager_validation_witness :
    (persistEvents [true, false, true] 3 1).getD 0 false = false :=
  no_eager_validation.1 [true, false, true] 3 1 (by decide) 0

/-! ### Claim theorems: hysteresis event identification (C1) -/

lemma foldl_max_shift (l : List Nat) (a b : Nat) :
    List.foldl max (max a b) l = max a (List.foldl max b l) := by
  induction l generalizing b with
  | nil => rfl
  | cons c cs ih => rw [List.foldl_cons, List.foldl_cons, max_assoc, ih]

lemma prevRetained_cons_of_not_lt (last : Nat) (K : List Nat) (c : Nat)
    (hlast : last < c) (hK : ∀ k ∈ K, ¬ k < c) :
    prevRetained (last :: K) c = last := by
  rw [prevRetained, List.filter_cons]
  have h2 : K.filter (fun k => decide (k < c)) = [] :=
    List.filter_eq_nil_iff.mpr (fun k hk => by simpa using hK k hk)
  simp [hlast, h2]

lemma prevRetained_cons_cons (last x : Nat) (K : List Nat) (c : Nat)
    (hlx : last ≤ x) (hlast : last < c) (hx : x < c) :
    prevRetained (last :: x :: K) c = prevRetained (x :: K) c := by
  have h1 : (last :: x :: K).filter (fun k => decide (k < c))
      = last :: x :: K.filter (fun k => decide (k < c)) := by
    simp [List.filter_cons, hlast, hx]
  have h2 : (x :: K).filter (fun k => decide (k < c))
      = x :: K.filter (fun k => decide (k < c)) := by
    simp [List.filter_cons, hx]
  rw [prevRetained, prevRetained, h1, h2]
  rw [List.foldl_cons, List.foldl_cons, List.foldl_cons]
  have h3 : max (max 0 last) x = max 0 x := by rw [max_assoc, max_eq_right hlx]
  rw [h3]

lemma keepAux_mem_iff (ml : List Bool) :
    ∀ (cs : List Nat) (last : Nat), cs.Pairwise (· < ·) → (∀ x ∈ cs, last < x) →
      ∀ c ∈ cs, (c ∈ keepAux ml last cs ↔
        anyInRange ml (prevRetained (last :: keepAux ml last cs) c) c = true) := by
  intro cs
  induction cs with
  | nil => intro last _ _ c hc; simp at hc
  | cons x xs ih =>
      intro last hsort hlast c hc
      have hsx : ∀ y ∈ xs, x < y := (List.pairwise_cons.mp hsort).1
      have hsort' : xs.Pairwise (· < ·) := (List.pairwise_cons.mp hsort).2
      have hlx : last < x := hlast x (List.mem_cons_self _ _)
      rw [keepAux]
      by_cases hr : anyInRange ml last x = true
      · rw [if_pos hr]
        rcases List.mem_cons.mp hc with hcx | hcxs
        · subst hcx
          have hK : ∀ k ∈ c :: keepAux ml c xs, ¬ k < c := by
            intro k hk
            rcases List.mem_cons.mp hk with h1 | h1
            · omega
            · have := hsx k (mem_of_mem_keepAux h1)
              omega
          rw [prevRetained_cons_of_not_lt last _ c hlx hK]
          simp [hr]
        · have hxc : x < c := hsx c hcxs
          have hlc : last < c := lt_trans hlx hxc
          rw [prevRetained_cons_cons last x _ c hlx.le hlc hxc]
          have hne : ¬ (c = x) := by omega
          rw [List.mem_cons]
          simp only [hne, false_or]
          exact ih x hsort' hsx c hcxs
      · rw [if_neg hr]
        rcases List.mem_cons.mp hc with hcx | hcxs
        · subst hcx
          have hnotmem : c ∉ keepAux ml last xs := by
            intro hmem
            have := hsx c (mem_of_mem_keepAux hmem)
            omega
          have hK : ∀ k ∈ keepAux ml last xs, ¬ k < c := by
            intro k hk
            have := hsx k (mem_of_mem_keepAux hk)
            omega
          rw [prevRetained_cons_of_not_lt last _ c hlx hK]
          exact iff_of_false hnotmem hr
        · have hlast' : ∀ y ∈ xs, last < y :=
            fun y hy => hlast y (List.mem_cons_of_mem _ hy)
          exact ih last hsort' hlast' c hcxs

lemma trueIndices_sorted (m : List Bool) : (trueIndices m).Pairwise (· < ·) :=
  List.Pairwise.sublist (List.filter_sublist _) (List.pairwise_lt_range _)

/-- Claim C1: in two-threshold mode, `identify_events` marks an onset candidate
after the first retained onset as a new onset iff a lower-bound close occurred in
the (inclusive) span between the previously retained onset and that candidate;
re-crossings without an intervening close are merged (not marked), and a station
with no onset candidates yields an all-False column. -/
theorem identify_events_hysteresis (q : List ℚ) (ub lb : ℚ) :
    (∀ c ∈ (trueIndices (risingMask (exceedSeries q ub))).tail,
      ((identifyEventsTwo q ub lb).getD c false = true ↔
        anyInRange (fallingMask (exceedSeries q lb))
          (prevRetained
            (keepOnsets (fallingMask (exceedSeries q lb))
              (trueIndices (risingMask (exceedSeries q ub)))) c) c = true)) ∧
    (trueIndices (risingMask (exceedSeries q ub)) = [] →
      ∀ i, (identifyEventsTwo q ub lb).getD i false = false) := by
  constructor
  · intro c hc
    cases hcc : trueIndices (risingMask (exceedSeries q ub)) with
    | nil => rw [hcc] at hc; simp at hc
    | cons c0 cs =>
        rw [hcc] at hc
        simp only [List.tail_cons] at hc
        have hsort : (trueIndices (risingMask (exceedSeries q ub))).Pairwise (· < ·) :=
          trueIndices_sorted _
        rw [hcc] at hsort
        have hs0 : ∀ y ∈ cs, c0 < y := (List.pairwise_cons.mp hsort).1
        have hsort' : cs.Pairwise (· < ·) := (List.pairwise_cons.mp hsort).2
        have hcmem : c ∈ trueIndices (risingMask (exceedSeries q ub)) := by
          rw [hcc]; exact List.mem_cons_of_mem _ hc
        have hclen : c < q.length := by
          have h := (mem_trueIndices.mp hcmem).1
          rwa [risingMask_length, exceedSeries_length] at h
        rw [identifyEventsTwo_getD, if_pos hclen, contains_eq_decide_mem, hcc, keepOnsets]
        have hne : ¬ (c = c0) := by
          have := hs0 c hc
          omega
        simp only [decide_eq_true_eq, List.mem_cons, hne, false_or]
        exact keepAux_mem_iff (fallingMask (exceedSeries q lb)) cs c0 hsort' hs0 c hc
  · intro hnil i
    rw [identifyEventsTwo_getD, hnil]
    by_cases hi : i < q.length
    · rw [if_pos hi, keepOnsets]
      simp [contains_eq_decide_mem]
    · rw [if_neg hi]

/-- Witness for C1 on the spec's discharge example `[3,6,6,6,2,6]` with upper
bound 5 and lower bound 3: the candidate at index 5 follows the close at index 4
and is marked as a new onset. -/
theorem identify_events_hysteresis_witness :
    5 ∈ (trueIndices (risingMask (exceedSeries [3, 6, 6, 6, 2, 6] 5))).tail ∧
      ((identifyEventsTwo [3, 6, 6, 6, 2, 6] 5 3).getD 5 false = true ↔
        anyInRange (fallingMask (exceedSeries [3, 6, 6, 6, 2, 6] 3))
          (prevRetained
            (keepOnsets (fallingMask (exceedSeries [3, 6, 6, 6, 2, 6] 3))
              (trueIndices (risingMask (exceedSeries [3, 6, 6, 6, 2, 6] 5)))) 5) 5 = true) :=
  ⟨by decide, (identify_events_hysteresis [3, 6, 6, 6, 2, 6] 5 3).1 5 (by decide)⟩

end EFAS
